import Mathlib

/-!
Verification of the scheduling core of `hourly_archive.py` (NERSC/tokio-cray).

The development shallowly embeds the `PeriodicArchiver` class.  Conventions:

* Timestamps are epoch seconds (`Int`), matching the second-resolution
  persisted format (`tokio.common.to_epoch` / `datetime.fromtimestamp`).
  `datetime` flooring of minute/second is modeled as flooring the epoch value
  to a multiple of 3600 (a fixed whole-hour UTC-like offset; the code is
  timezone-naive).  `datetime.datetime.now()` is modeled as a single fixed
  `now` parameter for the duration of one call, since every operation here is
  synchronous and no claim depends on clock drift within one call.
* The file system is a `Store` mapping file names to an optional list of
  text lines (`none` means the file does not exist).
* Python builtins that the code calls (`str.split()`, `str.lstrip()`,
  `int(str)`, the `"%d %d"` format) are modeled by executable character-level
  functions below.
* Exceptions are modeled with `Except PyError`; the distinct constructors
  mirror the distinct Python exception classes raised on each path.
* The `while` loop in `init_schedule` and the digit printer are written with
  explicit structural fuel so that they evaluate by kernel reduction; lemmas
  below show the fuel is always sufficient (the loop's exit condition holds
  for the returned value).
-/

/-! ## Basic types and constants -/

/-- One scheduling step, `SCHEDULE_STEP = datetime.timedelta(hours=1)`, in seconds. -/
def SCHEDULE_STEP : Int := 3600

abbrev Target := String

abbrev Lines := List String

/-- The modeled file system: file name to optional file content (list of lines). -/
abbrev Store := String → Option Lines

/-- Distinct Python exception classes that the modeled code can raise.

* `valueError`: `int(str)` applied to a non-numeric token (uncaught in
  `load_schedule` after the two tokens are unpacked).
* `typeError`: `int(None)` when no non-comment line exists, or comparing
  `None` with a `datetime` in `archive`.
* `runtimeError`: `update_schedule called before get/init schedule`, and the
  `No archiver defined` error in `run_archiver`.
* `fileNotFound`: `open(lockf_name, 'r')` on a missing schedule file.
* `alreadyRunning`: the re-raised `BlockingIOError` (`errno == EAGAIN`) with
  message `Instance of archiver already running`.
* `archiverError`: an arbitrary uncaught exception raised by the archiver
  callable itself. -/
inductive PyError
  | valueError
  | typeError
  | runtimeError
  | fileNotFound
  | alreadyRunning
  | archiverError
  deriving DecidableEq

/-- The persisted schedule record: `self.sched_start` (epoch seconds) and
`self.attempts`.  Both are plain Python ints once loaded, so both are `Int`
(a hand-edited file can hold a negative failure count). -/
structure Sched where
  start : Int
  attempts : Int
  deriving DecidableEq

/-- The mutable scheduling state of a `PeriodicArchiver` object.  In the code
`self.sched_start` and `self.attempts` are always both `None` or both set, so
they are modeled as one `Option Sched`.  `use_schedule` is `self.use_schedule`. -/
structure ArchState where
  sched : Option Sched
  use_schedule : Bool
  deriving DecidableEq

/-- Read-only configuration of one `PeriodicArchiver`:
`self.max_attempts` (`none` models Python `None`; the code tests it for
truthiness, so `some 0` is also inert), `self.max_age` in seconds
(`datetime.timedelta(days=max_age)`), and the `fsname_to_hdf5` table. -/
structure Config where
  max_attempts : Option Int
  max_age : Int
  fsname_to_hdf5 : Target → Option String

/-! ## Models of the Python builtins used by the code -/

/-- Character-level model of `str.lstrip()` (drop leading whitespace). -/
def lstrip (l : List Char) : List Char := List.dropWhile Char.isWhitespace l

/-- Model of `line.lstrip().startswith('#')`. -/
def isComment (l : String) : Bool :=
  match lstrip l.data with
  | c :: _ => c = '#'
  | [] => false

/-- Accumulator-based model of Python `str.split()` (no separator argument):
split on runs of whitespace, producing no empty tokens.  `acc` holds the
characters of the current token in reverse. -/
def pySplitGo : List Char → List Char → List String
  | acc, [] => if acc = [] then [] else [String.mk acc.reverse]
  | acc, c :: cs =>
    if c.isWhitespace then
      if acc = [] then pySplitGo [] cs else String.mk acc.reverse :: pySplitGo [] cs
    else pySplitGo (c :: acc) cs

/-- Model of `line.split()`. -/
def pySplit (l : String) : List String := pySplitGo [] l.data

/-- Numeric value of a digit character. -/
def digitVal (c : Char) : Nat := c.toNat - 48

/-- Fold a digit run into a number; `none` on the first non-digit character.
Models the digit scan inside Python `int(str)`. -/
def parseNatFrom (acc : Nat) : List Char → Option Nat
  | [] => some acc
  | c :: cs => if c.isDigit then parseNatFrom (acc * 10 + digitVal c) cs else none

/-- A non-empty all-digit run parsed as a `Nat`; `int("")` is an error. -/
def parseNatDigits : List Char → Option Nat
  | [] => none
  | c :: cs => parseNatFrom 0 (c :: cs)

/-- Sign handling of Python `int(str)` after stripping. -/
def pyIntChars : List Char → Option Int
  | [] => none
  | c :: cs =>
    if c = '-' then (parseNatDigits cs).map (fun n => -(n : Int))
    else if c = '+' then (parseNatDigits cs).map (fun n => (n : Int))
    else (parseNatDigits (c :: cs)).map (fun n => (n : Int))

/-- Model of Python `int(str)`: strip surrounding whitespace, then an optional
sign followed by a non-empty digit run.  (Python additionally allows
underscore digit separators; no schedule file written by this program
contains one, and no claim depends on them.) -/
def pyInt (s : String) : Option Int :=
  pyIntChars ((lstrip (lstrip s.data.reverse).reverse))

/-- Digit character for a value `d < 10`. -/
def digitChar (d : Nat) : Char := Char.ofNat (48 + d)

/-- Big-endian decimal digits of `n`, with structural fuel (sufficient when
`n ≤ fuel`, see `parseNatFrom_natDigitsFuel`). -/
def natDigitsFuel : Nat → Nat → List Char
  | 0, n => [digitChar n]
  | fuel + 1, n => if n < 10 then [digitChar n] else natDigitsFuel fuel (n / 10) ++ [digitChar (n % 10)]

/-- Decimal digits of a natural number. -/
def natDigits (n : Nat) : List Char := natDigitsFuel n n

/-- Model of the `"%d"` format for an `Int` (decimal, `-` sign for negatives). -/
def intRepr (i : Int) : String :=
  if i < 0 then String.mk ('-' :: natDigits (-i).toNat) else String.mk (natDigits i.toNat)

/-! ## The schedule store -/

/-- The `SCHEDULE_FILE = "%s.schedulefile"` template. -/
def scheduleSuffix : String := ".schedulefile"

/-- `PeriodicArchiver.get_schedule_file`. -/
def get_schedule_file (fsname : Target) : String := fsname ++ scheduleSuffix

/-- The comment line written by `commit_schedule`. -/
def commentLine : String := "# start of next interval, number of failed attempts at this start time"

/-- One space, the separator in the `"%d %d"` format. -/
def spaceStr : String := " "

/-- The file content written by `commit_schedule` for a record. -/
def schedLines (sc : Sched) : Lines :=
  [commentLine, intRepr sc.start ++ spaceStr ++ intRepr sc.attempts]

/-- `PeriodicArchiver.commit_schedule`: overwrite the target's schedule file
with a comment line and the `"%d %d"` data line. -/
def commit_schedule (sc : Sched) (store : Store) (fsname : Target) : Store :=
  fun f => if f = get_schedule_file fsname then some (schedLines sc) else store f

/-! ## Staleness and initialization policy -/

/-- Flooring a timestamp to the start of its hour (`minute=0, second=0` in
`init_schedule`'s `datetime` reconstruction). -/
def hourFloor (t : Int) : Int := t - t % 3600

/-- The `while (now - sched_start) > max_age: sched_start += 1 hour` loop of
`init_schedule`, with structural fuel.  `advanceFreshGo_not_stale` shows the
fuel used by `fresh_start` is sufficient: the loop's exit condition holds for
the result. -/
def advanceFreshGo (now max_age : Int) : Nat → Int → Int
  | 0, s => s
  | fuel + 1, s => if now - s > max_age then advanceFreshGo now max_age fuel (s + 3600) else s

/-- The fresh starting point computed by `init_schedule`: `now - max_age`
floored to the start of its hour, then advanced in single-hour steps while it
is still more than `max_age` before `now`. -/
def fresh_start (now max_age : Int) : Int :=
  let s0 := hourFloor (now - max_age)
  advanceFreshGo now max_age (now - max_age - s0).toNat s0

/-- `PeriodicArchiver.init_schedule`: reset the in-memory record to the fresh
starting point with zero failures, commit it, and return the fresh interval. -/
def init_schedule (cfg : Config) (now : Int) (st : ArchState) (store : Store) (fsname : Target) :
    ArchState × Store × (Int × Int) :=
  let s := fresh_start now cfg.max_age
  let sc : Sched := ⟨s, 0⟩
  ({ st with sched := some sc }, commit_schedule sc store fsname, (s, s + SCHEDULE_STEP))

/-! ## Loading -/

/-- Result of the token scan loop in `load_schedule`. -/
inductive ScanResult
  | gotTokens (a b : String)
  | tooFew
  | noDataLine
  deriving DecidableEq

/-- The `for line in sched_file` loop of `load_schedule`: skip comment lines;
on the first other line take `line.split()[0:2]`.  Unpacking fewer than two
tokens raises `ValueError`, which the code catches (`tooFew`); if the file has
no non-comment line at all the loop falls through with both fields `None`
(`noDataLine`). -/
def scanLines : Lines → ScanResult
  | [] => .noDataLine
  | l :: rest =>
    if isComment l then scanLines rest
    else
      match pySplit l with
      | a :: b :: _ => .gotTokens a b
      | _ => .tooFew

/-- Outcome of the parsing phase of `load_schedule` (lines 253-269): a parsed
record, a caught `ValueError` leading to re-initialization, or an uncaught
exception (`int()` of a non-numeric token raises `ValueError` outside the
`try`; `int(None)` after a file with no data line raises `TypeError`). -/
inductive ParsePhase
  | record (sc : Sched)
  | reinit
  | crash (e : PyError)
  deriving DecidableEq

/-- The parsing phase of `load_schedule`: scan the lines, then convert the two
tokens with `int()`. -/
def parse_schedule (lines : Lines) : ParsePhase :=
  match scanLines lines with
  | .tooFew => .reinit
  | .noDataLine => .crash .typeError
  | .gotTokens a b =>
    match pyInt a with
    | none => .crash .valueError
    | some s =>
      match pyInt b with
      | none => .crash .valueError
      | some att => .record ⟨s, att⟩

/-- The max-attempts policy applied by `load_schedule`:
`if self.max_attempts and self.attempts >= self.max_attempts`, advance one
step and reset the failure count.  Python truthiness makes both `None` and
`0` inert. -/
def applyMaxAttempts : Option Int → Sched → Sched
  | none, sc => sc
  | some m, sc => if m ≠ 0 ∧ m ≤ sc.attempts then ⟨sc.start + SCHEDULE_STEP, 0⟩ else sc

/-- `PeriodicArchiver.load_schedule`: missing file or caught parse failure
re-initializes; otherwise apply the max-attempts policy, then drop the record
as stale when `now - sched_start > max_age`, else return the interval with
the store untouched. -/
def load_schedule (cfg : Config) (now : Int) (st : ArchState) (store : Store) (fsname : Target) :
    Except PyError (ArchState × Store × (Int × Int)) :=
  match store (get_schedule_file fsname) with
  | none => .ok (init_schedule cfg now st store fsname)
  | some lines =>
    match parse_schedule lines with
    | .crash e => .error e
    | .reinit => .ok (init_schedule cfg now st store fsname)
    | .record sc0 =>
      let sc := applyMaxAttempts cfg.max_attempts sc0
      if now - sc.start > cfg.max_age then
        .ok (init_schedule cfg now st store fsname)
      else
        .ok ({ st with sched := some sc }, store, (sc.start, sc.start + SCHEDULE_STEP))

/-! ## Committing an outcome -/

/-- `PeriodicArchiver.update_schedule`: no-op when the schedule is bypassed;
`RuntimeError` when called before any load/init; otherwise advance and reset
on success, or increment the failure count (start unchanged) on failure, and
commit the result. -/
def update_schedule (st : ArchState) (store : Store) (fsname : Target) (success : Bool) :
    Except PyError (ArchState × Store) :=
  if st.use_schedule = false then .ok (st, store)
  else
    match st.sched with
    | none => .error .runtimeError
    | some sc =>
      let sc' := if success then Sched.mk (sc.start + SCHEDULE_STEP) 0
                 else Sched.mk sc.start (sc.attempts + 1)
      .ok ({ st with sched := some sc' }, commit_schedule sc' store fsname)

/-! ## The run coordinator -/

/-- Behavior of the external archiver callable for one invocation: it either
returns normally or raises. -/
inductive ArchiverBehavior
  | returns
  | raises
  deriving DecidableEq

/-- Observable outcome of `run_archiver`: the result, whether this process
still holds the per-target lock afterwards, and whether the archiver callable
was actually invoked.  (The argument-vector assembly for the callable is
output formatting with no bearing on any claim and is not modeled.) -/
structure RunArchiverResult where
  result : Except PyError Unit
  lockHeld : Bool
  invoked : Bool

/-- `PeriodicArchiver.run_archiver`: open the schedule file, take the
exclusive non-blocking `flock`; re-raise as `alreadyRunning` when another
process holds it; raise `RuntimeError` (after unlocking) when no archiver
callable is configured; call the callable; unlock only after a normal
return — there is no `finally`, so when the callable raises, the lock is
still held as the exception propagates. -/
def run_archiver (store : Store) (otherHolds : Bool) (method : Option ArchiverBehavior)
    (fsname : Target) : RunArchiverResult :=
  match store (get_schedule_file fsname) with
  | none => ⟨.error .fileNotFound, false, false⟩
  | some _ =>
    if otherHolds then ⟨.error .alreadyRunning, false, false⟩
    else
      match method with
      | none => ⟨.error .runtimeError, false, false⟩
      | some .raises => ⟨.error .archiverError, true, true⟩
      | some .returns => ⟨.ok (), false, true⟩

/-- Normal-return outcomes of `archive`. -/
inductive ArchiveReturn
  | configError
  | deferred
  | failedNoOutput
  | success
  deriving DecidableEq

/-- Observable outcome of one `archive` call: normal return or propagated
exception, the final in-memory state, the final store, whether this process
still holds the lock, and whether the archiver callable was invoked. -/
structure ArchiveResult where
  result : Except PyError ArchiveReturn
  state : ArchState
  store : Store
  lockHeld : Bool
  invoked : Bool

/-- Interval resolution in `archive` (lines 346-348 together with the
explicit-bounds mode): with the schedule in use, call `load_schedule`;
otherwise use the explicit start/end (comparing a missing bound with a
`datetime` later would raise `TypeError`). -/
def resolve_interval (cfg : Config) (now : Int) (st1 : ArchState) (store0 : Store)
    (startOpt endOpt : Option Int) (fsname : Target) :
    Except PyError (ArchState × Store × (Int × Int)) :=
  if st1.use_schedule then load_schedule cfg now st1 store0 fsname
  else
    match startOpt, endOpt with
    | some s, some e => .ok (st1, store0, (s, e))
    | _, _ => .error .typeError

/-- The tail of `archive` from the `try:` around `run_archiver` on: the blind
`except:` records a failure and re-raises on any exception from
`run_archiver`; a normal return with a missing output file commits a failure;
a present output file commits a success. -/
def run_and_commit (st2 : ArchState) (store2 : Store) (otherHolds : Bool)
    (method : Option ArchiverBehavior) (outputExists : Bool) (fsname : Target) : ArchiveResult :=
  let ra := run_archiver store2 otherHolds method fsname
  match ra.result with
  | .error err =>
    match update_schedule st2 store2 fsname false with
    | .ok u => ⟨.error err, u.1, u.2, ra.lockHeld, ra.invoked⟩
    | .error e2 => ⟨.error e2, st2, store2, ra.lockHeld, ra.invoked⟩
  | .ok _ =>
    if outputExists then
      match update_schedule st2 store2 fsname true with
      | .ok u => ⟨.ok .success, u.1, u.2, ra.lockHeld, ra.invoked⟩
      | .error e2 => ⟨.error e2, st2, store2, ra.lockHeld, ra.invoked⟩
    else
      match update_schedule st2 store2 fsname false with
      | .ok u => ⟨.ok .failedNoOutput, u.1, u.2, ra.lockHeld, ra.invoked⟩
      | .error e2 => ⟨.error e2, st2, store2, ra.lockHeld, ra.invoked⟩

/-- `PeriodicArchiver.archive`: switch off the schedule when an explicit start
is given (and back on when the end is missing); abort on an unknown target;
resolve the interval (from the schedule or the explicit bounds); defer
intervals that extend past `now`; then run the archiver under the lock and
commit the outcome (`run_and_commit`).  `outputExists` is whether the output
file exists after the archiver call returns.  Directory creation and
permission fixing are external effects with no bearing on any claim and are
not modeled; on paths that propagate an exception the store and result are
modeled exactly, while the in-memory fields of the dying object are not
further tracked. -/
def archive (cfg : Config) (now : Int) (st0 : ArchState) (store0 : Store)
    (startOpt endOpt : Option Int) (otherHolds : Bool)
    (method : Option ArchiverBehavior) (outputExists : Bool) (fsname : Target) : ArchiveResult :=
  let st1 := match startOpt with
    | some _ => { st0 with use_schedule := endOpt.isNone }
    | none => st0
  match cfg.fsname_to_hdf5 fsname with
  | none => ⟨.ok .configError, st1, store0, false, false⟩
  | some _ =>
    match resolve_interval cfg now st1 store0 startOpt endOpt fsname with
    | .error e => ⟨.error e, st1, store0, false, false⟩
    | .ok r =>
      if r.2.2.1 > now ∨ r.2.2.2 > now then ⟨.ok .deferred, r.1, r.2.1, false, false⟩
      else run_and_commit r.1 r.2.1 otherHolds method outputExists fsname

/-! ## Schedule-driven operation sequences

The spec's record invariant quantifies over sequences of schedule-driven
operations (`next_interval` = `load_schedule`, `commit_outcome` =
`update_schedule`).  The following glue composes the source functions into a
step function over the pair (in-memory state, store); a raised exception ends
the run without mutating the store, so a crashed step leaves the pair as is. -/

/-- One schedule-driven operation on a target. -/
inductive SchedOp
  | next
  | commit (success : Bool)

/-- Apply one operation to (in-memory state, store) using the source
functions; on an uncaught exception nothing is committed. -/
def runOp (cfg : Config) (now : Int) (t : Target) : SchedOp → ArchState × Store → ArchState × Store
  | .next, p =>
    match load_schedule cfg now p.1 p.2 t with
    | .ok r => (r.1, r.2.1)
    | .error _ => p
  | .commit b, p =>
    match update_schedule p.1 p.2 t b with
    | .ok r => r
    | .error _ => p

/-- Run a sequence of schedule-driven operations. -/
def execOps (cfg : Config) (now : Int) (t : Target) :
    List SchedOp → ArchState × Store → ArchState × Store
  | [], p => p
  | op :: ops, p => execOps cfg now t ops (runOp cfg now t op p)

/-- The tracked `next_start` of the in-memory record (0 when no record is
loaded; the invariant below guarantees one is). -/
def startVal (p : ArchState × Store) : Int :=
  match p.1.sched with
  | some sc => sc.start
  | none => 0

/-- States reachable by schedule-driven operation sequences: the schedule is
in use, a record is loaded, and the store holds either exactly the committed
form of that record, or (right after a `load_schedule` whose max-attempts
branch advanced in memory without committing) the committed form of a record
whose adjustment is the in-memory one, not yet stale. -/
def SchedInv (cfg : Config) (now : Int) (t : Target) (p : ArchState × Store) : Prop :=
  p.1.use_schedule = true ∧
  ∃ sc, p.1.sched = some sc ∧
    (p.2 (get_schedule_file t) = some (schedLines sc) ∨
     ∃ sc0, p.2 (get_schedule_file t) = some (schedLines sc0) ∧
       sc = applyMaxAttempts cfg.max_attempts sc0 ∧
       sc0.start ≤ sc.start ∧ now - sc.start ≤ cfg.max_age)

/-! ## Concrete example data used by witnesses and counterexamples

The configuration mirrors the shipped defaults: `cscratch` mapped to
`snx11168.hdf5`, `--max-attempts 2`, `--max-age 30` days = 2592000 seconds.
`nowEx` is an hour boundary; the line constants are schedule-file data lines
at various ages relative to `nowEx`. -/

def fsEx : Target := "cscratch"

def hdf5Ex : String := "snx11168.hdf5"

def cfgEx : Config := ⟨some 2, 2592000, fun n => if n = fsEx then some hdf5Ex else none⟩

def nowEx : Int := 1700002800

def stEx : ArchState := ⟨none, true⟩

def emptyStore : Store := fun _ => none

/-- A store whose only file is the example target's schedule file. -/
def storeWith (ls : Lines) : Store :=
  fun f => if f = get_schedule_file fsEx then some ls else none

def lineC1 : String := "1699995600 0"

def lineC1after : String := "1699995600 1"

def lineC3 : String := "abc def"

def lineC3b : String := "# a schedule file holding only this comment"

def lineC5 : String := "1697410700 2"

def lineC5w : String := "1697000000 0"

def lineC6 : String := "1697000000 2"

def lineC10 : String := "1697410700 5"

def lineC9 : String := "1700000000 3"

def epochLineEx : String := "1700003600 0"

def lineFut : String := "1800000000 0"

/-- The example configuration with `--max-attempts 0`, which Python's
truthiness test treats like `None`. -/
def cfgZero : Config := ⟨some 0, 2592000, fun n => if n = fsEx then some hdf5Ex else none⟩

def lineC6z : String := "1699995600 5"

/-! ## Helper lemmas: decimal printing and parsing round-trip -/

theorem digit_props : ∀ d, d < 10 →
    ((digitChar d).isDigit = true ∧ digitVal (digitChar d) = d ∧
     (digitChar d).isWhitespace = false ∧ digitChar d ≠ '#' ∧
     digitChar d ≠ '-' ∧ digitChar d ≠ '+') := by decide

theorem natDigitsFuel_ne_nil (fuel n : Nat) : natDigitsFuel fuel n ≠ [] := by
  cases fuel with
  | zero => simp [natDigitsFuel]
  | succ fuel =>
    by_cases h : n < 10 <;> simp [natDigitsFuel, h]

theorem natDigitsFuel_mem (fuel : Nat) : ∀ n, n ≤ fuel → ∀ c ∈ natDigitsFuel fuel n,
    ∃ d, d < 10 ∧ c = digitChar d := by
  induction fuel with
  | zero =>
    intro n hn c hc
    interval_cases n
    simp [natDigitsFuel] at hc
    exact ⟨0, by omega, hc⟩
  | succ fuel ih =>
    intro n hn c hc
    by_cases h : n < 10
    · simp [natDigitsFuel, h] at hc
      exact ⟨n, h, hc⟩
    · simp only [natDigitsFuel, if_neg h, List.mem_append, List.mem_singleton] at hc
      rcases hc with hc | hc
      · exact ih (n / 10) (by omega) c hc
      · exact ⟨n % 10, by omega, hc⟩

theorem parseNatFrom_append (l1 l2 : List Char) : ∀ acc,
    parseNatFrom acc (l1 ++ l2) =
      (parseNatFrom acc l1).bind (fun m => parseNatFrom m l2) := by
  induction l1 with
  | nil => intro acc; simp [parseNatFrom]
  | cons c cs ih =>
    intro acc
    by_cases h : c.isDigit <;> simp [parseNatFrom, h, ih]

theorem parseNatFrom_natDigitsFuel (fuel : Nat) : ∀ n acc, n ≤ fuel →
    parseNatFrom acc (natDigitsFuel fuel n) =
      some (acc * 10 ^ (natDigitsFuel fuel n).length + n) := by
  induction fuel with
  | zero =>
    intro n acc hn
    interval_cases n
    have h0 := digit_props 0 (by omega)
    simp [natDigitsFuel, parseNatFrom, h0.1, h0.2.1]
  | succ fuel ih =>
    intro n acc hn
    by_cases h : n < 10
    · have hd := digit_props n h
      simp [natDigitsFuel, h, parseNatFrom, hd.1, hd.2.1]
    · have hd := digit_props (n % 10) (by omega)
      have hrec := ih (n / 10) acc (by omega)
      simp only [natDigitsFuel, if_neg h, parseNatFrom_append, hrec, Option.some_bind,
        parseNatFrom, hd.1, if_pos, hd.2.1, List.length_append, List.length_singleton]
      congr 1
      have h1 : 10 * (n / 10) + n % 10 = n := Nat.div_add_mod n 10
      calc (acc * 10 ^ (natDigitsFuel fuel (n / 10)).length + n / 10) * 10 + n % 10
          = acc * (10 ^ (natDigitsFuel fuel (n / 10)).length * 10) + (10 * (n / 10) + n % 10) := by
            ring
        _ = acc * 10 ^ ((natDigitsFuel fuel (n / 10)).length + 1) + n := by rw [h1, pow_succ]

theorem parseNatDigits_natDigits (n : Nat) : parseNatDigits (natDigits n) = some n := by
  have hne := natDigitsFuel_ne_nil n n
  have hp := parseNatFrom_natDigitsFuel n n 0 (le_refl n)
  unfold natDigits at *
  cases hd : natDigitsFuel n n with
  | nil => exact absurd hd hne
  | cons c cs =>
    rw [hd] at hp
    simp [parseNatDigits, hp]

theorem natDigits_mem (n : Nat) : ∀ c ∈ natDigits n, ∃ d, d < 10 ∧ c = digitChar d :=
  natDigitsFuel_mem n n (le_refl n)

theorem intRepr_data (i : Int) :
    (0 ≤ i ∧ (intRepr i).data = natDigits i.toNat) ∨
    (i < 0 ∧ (intRepr i).data = '-' :: natDigits (-i).toNat) := by
  by_cases h : i < 0
  · exact Or.inr ⟨h, by simp [intRepr, h]⟩
  · exact Or.inl ⟨by omega, by simp [intRepr, h]⟩

theorem intRepr_nonws (i : Int) : ∀ c ∈ (intRepr i).data, c.isWhitespace = false := by
  intro c hc
  rcases intRepr_data i with ⟨_, hd⟩ | ⟨_, hd⟩
  · rw [hd] at hc
    obtain ⟨d, hd10, rfl⟩ := natDigits_mem _ c hc
    exact (digit_props d hd10).2.2.1
  · rw [hd] at hc
    rcases List.mem_cons.mp hc with rfl | hc
    · decide
    · obtain ⟨d, hd10, rfl⟩ := natDigits_mem _ c hc
      exact (digit_props d hd10).2.2.1

theorem intRepr_ne_nil (i : Int) : (intRepr i).data ≠ [] := by
  rcases intRepr_data i with ⟨_, hd⟩ | ⟨_, hd⟩ <;> rw [hd]
  · exact natDigitsFuel_ne_nil _ _
  · simp

theorem lstrip_eq_self {l : List Char} (h : ∀ c ∈ l, c.isWhitespace = false) :
    lstrip l = l := by
  cases l with
  | nil => rfl
  | cons c cs =>
    unfold lstrip
    rw [List.dropWhile_cons_of_neg]
    simp [h c (by simp)]

theorem pyInt_intRepr (i : Int) : pyInt (intRepr i) = some i := by
  have hnws := intRepr_nonws i
  have hrev : ∀ c ∈ (intRepr i).data.reverse, c.isWhitespace = false := by
    intro c hc; exact hnws c (List.mem_reverse.mp hc)
  unfold pyInt
  rw [lstrip_eq_self hrev, List.reverse_reverse, lstrip_eq_self hnws]
  rcases intRepr_data i with ⟨hi, hd⟩ | ⟨hi, hd⟩ <;> rw [hd]
  · have hne := natDigitsFuel_ne_nil i.toNat i.toNat
    have hp := parseNatDigits_natDigits i.toNat
    unfold natDigits at *
    cases hd2 : natDigitsFuel i.toNat i.toNat with
    | nil => exact absurd hd2 hne
    | cons c cs =>
      rw [hd2] at hp
      obtain ⟨d, hd10, hcd⟩ := natDigitsFuel_mem i.toNat i.toNat (le_refl _) c (by rw [hd2]; simp)
      have hprops := digit_props d hd10
      rw [pyIntChars, if_neg (by rw [hcd]; exact hprops.2.2.2.2.1),
        if_neg (by rw [hcd]; exact hprops.2.2.2.2.2), hp]
      simp [Int.toNat_of_nonneg hi]
  · have hp := parseNatDigits_natDigits (-i).toNat
    rw [pyIntChars, if_pos rfl, hp]
    show some (-(((-i).toNat : Nat) : Int)) = some i
    congr 1
    omega

/-! ## Helper lemmas: splitting and the persisted line format -/

theorem pySplitGo_nonws (t : List Char) : ∀ acc rest, (∀ c ∈ t, c.isWhitespace = false) →
    pySplitGo acc (t ++ rest) = pySplitGo (t.reverse ++ acc) rest := by
  induction t with
  | nil => intro acc rest _; simp
  | cons c cs ih =>
    intro acc rest h
    have hc : c.isWhitespace = false := h c (by simp)
    have hcs : ∀ x ∈ cs, x.isWhitespace = false := fun x hx => h x (by simp [hx])
    have step : pySplitGo acc (c :: (cs ++ rest)) = pySplitGo (c :: acc) (cs ++ rest) := by
      simp [pySplitGo, hc]
    rw [List.cons_append, step, ih (c :: acc) rest hcs]
    simp [List.reverse_cons, List.append_assoc]

theorem pySplitGo_single (t : List Char) (hne : t ≠ [])
    (hw : ∀ c ∈ t, c.isWhitespace = false) :
    pySplitGo [] t = [String.mk t] := by
  have h := pySplitGo_nonws t [] [] hw
  rw [List.append_nil] at h
  rw [h]
  simp [pySplitGo, hne]

theorem pySplit_pair (t1 t2 : List Char) (h1 : t1 ≠ []) (h2 : t2 ≠ [])
    (hw1 : ∀ c ∈ t1, c.isWhitespace = false) (hw2 : ∀ c ∈ t2, c.isWhitespace = false) :
    pySplitGo [] (t1 ++ ' ' :: t2) = [String.mk t1, String.mk t2] := by
  rw [pySplitGo_nonws t1 [] (' ' :: t2) hw1, List.append_nil]
  have hws : (' ' : Char).isWhitespace = true := by decide
  simp [pySplitGo, hws, h1, pySplitGo_single t2 h2 hw2]

theorem mk_data (s : String) : String.mk s.data = s := rfl

theorem dataLine_data (a b : Int) :
    (intRepr a ++ spaceStr ++ intRepr b).data = (intRepr a).data ++ ' ' :: (intRepr b).data := by
  have hsp : spaceStr.data = [' '] := rfl
  simp [String.data_append, hsp]

theorem intRepr_head (i : Int) :
    ∃ c cs, (intRepr i).data = c :: cs ∧ c.isWhitespace = false ∧ c ≠ '#' := by
  rcases intRepr_data i with ⟨_, hd⟩ | ⟨_, hd⟩
  · cases hd2 : natDigits i.toNat with
    | nil => exact absurd hd2 (natDigitsFuel_ne_nil _ _)
    | cons c cs =>
      obtain ⟨d, h10, rfl⟩ := natDigits_mem _ c (by rw [hd2]; simp)
      exact ⟨_, cs, by rw [hd, hd2], (digit_props d h10).2.2.1, (digit_props d h10).2.2.2.1⟩
  · exact ⟨'-', _, hd, by decide, by decide⟩

theorem isComment_dataLine (a b : Int) :
    isComment (intRepr a ++ spaceStr ++ intRepr b) = false := by
  obtain ⟨c, cs, hd, hws, hhash⟩ := intRepr_head a
  unfold isComment
  rw [dataLine_data, hd]
  show (match lstrip (c :: (cs ++ ' ' :: (intRepr b).data)) with
    | c :: _ => decide (c = '#')
    | [] => false) = false
  unfold lstrip
  rw [List.dropWhile_cons_of_neg (by simp [hws])]
  simp [hhash]

theorem scanLines_schedLines (sc : Sched) :
    scanLines (schedLines sc) = .gotTokens (intRepr sc.start) (intRepr sc.attempts) := by
  have hcomment : isComment commentLine = true := by decide
  have hdata : isComment (intRepr sc.start ++ spaceStr ++ intRepr sc.attempts) = false :=
    isComment_dataLine sc.start sc.attempts
  have hsplit : pySplit (intRepr sc.start ++ spaceStr ++ intRepr sc.attempts) =
      [intRepr sc.start, intRepr sc.attempts] := by
    unfold pySplit
    rw [dataLine_data,
      pySplit_pair _ _ (intRepr_ne_nil _) (intRepr_ne_nil _) (intRepr_nonws _) (intRepr_nonws _),
      mk_data, mk_data]
  simp [schedLines, scanLines, hcomment, hdata, hsplit]

theorem parse_schedule_schedLines (sc : Sched) : parse_schedule (schedLines sc) = .record sc := by
  unfold parse_schedule
  rw [scanLines_schedLines]
  simp [pyInt_intRepr]

/-! ## Helper lemmas: the fresh-start loop and the load decision tree -/

theorem advanceFreshGo_ge (now ma : Int) : ∀ fuel s, s ≤ advanceFreshGo now ma fuel s := by
  intro fuel
  induction fuel with
  | zero => intro s; simp [advanceFreshGo]
  | succ fuel ih =>
    intro s
    by_cases h : now - s > ma
    · have := ih (s + 3600)
      simp only [advanceFreshGo, if_pos h]
      omega
    · simp [advanceFreshGo, h]

theorem advanceFreshGo_le (now ma : Int) : ∀ fuel s, (now - ma - s).toNat ≤ fuel →
    now - advanceFreshGo now ma fuel s ≤ ma := by
  intro fuel
  induction fuel with
  | zero =>
    intro s hs
    simp only [advanceFreshGo]
    omega
  | succ fuel ih =>
    intro s hs
    by_cases h : now - s > ma
    · simp only [advanceFreshGo, if_pos h]
      exact ih (s + 3600) (by omega)
    · simp only [advanceFreshGo, if_neg h]
      omega

theorem fresh_start_not_stale (now ma : Int) : now - fresh_start now ma ≤ ma := by
  unfold fresh_start
  exact advanceFreshGo_le now ma _ _ (le_refl _)

theorem fresh_start_ge (now ma : Int) : now - ma ≤ fresh_start now ma := by
  have := fresh_start_not_stale now ma
  omega

theorem commit_schedule_get (sc : Sched) (store : Store) (t : Target) :
    commit_schedule sc store t (get_schedule_file t) = some (schedLines sc) := by
  simp [commit_schedule]

theorem init_schedule_store (cfg : Config) (now : Int) (st : ArchState) (store : Store)
    (t : Target) :
    (init_schedule cfg now st store t).2.1 (get_schedule_file t) =
      some (schedLines ⟨fresh_start now cfg.max_age, 0⟩) := by
  simp [init_schedule, commit_schedule_get]

theorem load_schedule_record (cfg : Config) (now : Int) (st : ArchState) (store : Store)
    (t : Target) (lines : Lines) (sc0 : Sched)
    (hstore : store (get_schedule_file t) = some lines)
    (hparse : parse_schedule lines = .record sc0) :
    load_schedule cfg now st store t =
      (if now - (applyMaxAttempts cfg.max_attempts sc0).start > cfg.max_age then
        .ok (init_schedule cfg now st store t)
      else
        .ok ({ st with sched := some (applyMaxAttempts cfg.max_attempts sc0) }, store,
          ((applyMaxAttempts cfg.max_attempts sc0).start,
           (applyMaxAttempts cfg.max_attempts sc0).start + SCHEDULE_STEP))) := by
  unfold load_schedule
  rw [hstore]
  simp only [hparse]

theorem load_ok_file_exists (cfg : Config) (now : Int) (st : ArchState) (store : Store)
    (t : Target) (r : ArchState × Store × (Int × Int))
    (hl : load_schedule cfg now st store t = .ok r) :
    ∃ ls, r.2.1 (get_schedule_file t) = some ls := by
  unfold load_schedule at hl
  cases hstore : store (get_schedule_file t) with
  | none =>
    rw [hstore] at hl
    simp only [Except.ok.injEq] at hl
    exact ⟨_, by rw [← hl, init_schedule_store]⟩
  | some lines =>
    rw [hstore] at hl
    simp only [] at hl
    cases hparse : parse_schedule lines with
    | crash e =>
      simp only [hparse] at hl
      exact absurd hl (by simp)
    | reinit =>
      simp only [hparse, Except.ok.injEq] at hl
      exact ⟨_, by rw [← hl, init_schedule_store]⟩
    | record sc0 =>
      simp only [hparse] at hl
      by_cases hstale : now - (applyMaxAttempts cfg.max_attempts sc0).start > cfg.max_age
      · rw [if_pos hstale] at hl
        simp only [Except.ok.injEq] at hl
        exact ⟨_, by rw [← hl, init_schedule_store]⟩
      · rw [if_neg hstale] at hl
        simp only [Except.ok.injEq] at hl
        exact ⟨lines, by rw [← hl]; exact hstore⟩

/-! ## Claim theorems -/

/-- C4: for a target with loaded schedule state, `commit_outcome` with
success advances `next_start` by one step, resets `failure_count` to 0 and
persists the record; with failure it persists `failure_count + 1` with
`next_start` exactly unchanged; the persisted content is the comment line
followed by the two integers. -/
theorem commit_outcome_transitions (st : ArchState) (store : Store) (t : Target) (sc : Sched)
    (hu : st.use_schedule = true) (hs : st.sched = some sc) :
    update_schedule st store t true =
      .ok ({ st with sched := some ⟨sc.start + SCHEDULE_STEP, 0⟩ },
        commit_schedule ⟨sc.start + SCHEDULE_STEP, 0⟩ store t) ∧
    update_schedule st store t false =
      .ok ({ st with sched := some ⟨sc.start, sc.attempts + 1⟩ },
        commit_schedule ⟨sc.start, sc.attempts + 1⟩ store t) ∧
    commit_schedule ⟨sc.start + SCHEDULE_STEP, 0⟩ store t (get_schedule_file t) =
      some [commentLine, intRepr (sc.start + SCHEDULE_STEP) ++ spaceStr ++ intRepr 0] := by
  refine ⟨?_, ?_, ?_⟩ <;> simp [update_schedule, hu, hs, commit_schedule_get, schedLines]

/-- Witness for C4 at the spec's example: epoch 1700000000 with failure
count 0; success persists the data line `1700003600 0`. -/
theorem commit_outcome_transitions_witness :
    update_schedule ⟨some ⟨1700000000, 0⟩, true⟩ emptyStore fsEx true =
      .ok (⟨some ⟨1700003600, 0⟩, true⟩, commit_schedule ⟨1700003600, 0⟩ emptyStore fsEx) ∧
    commit_schedule ⟨1700003600, 0⟩ emptyStore fsEx (get_schedule_file fsEx) =
      some [commentLine, epochLineEx] := by
  refine ⟨?_, by rfl⟩
  exact (commit_outcome_transitions ⟨some ⟨1700000000, 0⟩, true⟩ emptyStore fsEx
    ⟨1700000000, 0⟩ rfl rfl).1

/-- C3 (amended): a missing file, or a first non-comment line with fewer
than two whitespace-separated tokens, is treated as not-found and the record
is re-initialized; but a first non-comment line whose first or second token
is not a valid integer raises an uncaught `ValueError`, and a file with no
non-comment line at all raises an uncaught `TypeError`. -/
theorem load_malformed_cases (cfg : Config) (now : Int) (st : ArchState) (store : Store)
    (t : Target) :
    (store (get_schedule_file t) = none →
      load_schedule cfg now st store t = .ok (init_schedule cfg now st store t)) ∧
    (∀ lines, store (get_schedule_file t) = some lines → scanLines lines = .tooFew →
      load_schedule cfg now st store t = .ok (init_schedule cfg now st store t)) ∧
    (∀ lines a b, store (get_schedule_file t) = some lines → scanLines lines = .gotTokens a b →
      pyInt a = none →
      load_schedule cfg now st store t = .error .valueError) ∧
    (∀ lines a b s, store (get_schedule_file t) = some lines → scanLines lines = .gotTokens a b →
      pyInt a = some s → pyInt b = none →
      load_schedule cfg now st store t = .error .valueError) ∧
    (∀ lines, store (get_schedule_file t) = some lines → scanLines lines = .noDataLine →
      load_schedule cfg now st store t = .error .typeError) := by
  refine ⟨?_, ?_, ?_, ?_, ?_⟩
  · intro hstore
    unfold load_schedule
    rw [hstore]
  · intro lines hstore hscan
    unfold load_schedule
    rw [hstore]
    simp only [parse_schedule, hscan]
  · intro lines a b hstore hscan hpa
    unfold load_schedule
    rw [hstore]
    simp only [parse_schedule, hscan, hpa]
  · intro lines a b s hstore hscan hpa hpb
    unfold load_schedule
    rw [hstore]
    simp only [parse_schedule, hscan, hpa, hpb]
  · intro lines hstore hscan
    unfold load_schedule
    rw [hstore]
    simp only [parse_schedule, hscan]

/-- Witness for C3 (amended): a missing file re-initializes, and a file
holding only a comment line raises `TypeError`. -/
theorem load_malformed_cases_witness :
    load_schedule cfgEx nowEx stEx emptyStore fsEx =
      .ok (init_schedule cfgEx nowEx stEx emptyStore fsEx) ∧
    load_schedule cfgEx nowEx stEx (storeWith [lineC3b]) fsEx = .error .typeError := by
  refine ⟨(load_malformed_cases cfgEx nowEx stEx emptyStore fsEx).1 rfl, ?_⟩
  exact (load_malformed_cases cfgEx nowEx stEx (storeWith [lineC3b]) fsEx).2.2.2.2
    [lineC3b] rfl rfl

/-- Counterexample to C3 as stated: the schedule file `abc def` has a first
non-comment line whose tokens are non-numeric, yet `load_schedule` raises an
uncaught `ValueError` instead of treating the record as not-found. -/
theorem load_nonnumeric_crashes :
    parse_schedule [lineC3] = .crash .valueError ∧
    load_schedule cfgEx nowEx stEx (storeWith [lineC3]) fsEx = .error .valueError := by
  exact ⟨rfl, rfl⟩

/-- C9: committing a record stores exactly the comment line plus data line for
that target; parsing that content back yields the identical record (same
second-resolution start, same failure count); and a leading comment line does
not change what any file content parses to. -/
theorem save_load_roundtrip (sc : Sched) (store : Store) (t : Target) :
    commit_schedule sc store t (get_schedule_file t) = some (schedLines sc) ∧
    parse_schedule (schedLines sc) = .record sc ∧
    (∀ c ls, isComment c = true → parse_schedule (c :: ls) = parse_schedule ls) := by
  refine ⟨commit_schedule_get sc store t, parse_schedule_schedLines sc, ?_⟩
  intro c ls hc
  simp [parse_schedule, scanLines, hc]

/-- Witness for C9 at a concrete record and file. -/
theorem save_load_roundtrip_witness :
    parse_schedule (schedLines ⟨1700000000, 3⟩) = .record ⟨1700000000, 3⟩ ∧
    parse_schedule (commentLine :: [lineC9]) = parse_schedule [lineC9] := by
  exact ⟨(save_load_roundtrip ⟨1700000000, 3⟩ emptyStore fsEx).2.1,
    (save_load_roundtrip ⟨1700000000, 3⟩ emptyStore fsEx).2.2 commentLine [lineC9] (by decide)⟩


/-- C10: when the max-attempts branch fires and the advanced start is not
stale, `load_schedule` returns the advanced record (start + step, failures 0)
from memory with the store unchanged; the skip is only persisted by the next
`update_schedule`, which commits the advanced start. -/
theorem abandonment_not_persisted (cfg : Config) (now : Int) (st : ArchState) (store : Store)
    (t : Target) (lines : Lines) (sc0 : Sched) (m : Int)
    (hstore : store (get_schedule_file t) = some lines)
    (hparse : parse_schedule lines = .record sc0)
    (hma : cfg.max_attempts = some m) (hm0 : m ≠ 0) (hatt : m ≤ sc0.attempts)
    (hfresh : ¬(now - (sc0.start + SCHEDULE_STEP) > cfg.max_age)) :
    load_schedule cfg now st store t =
      .ok ({ st with sched := some ⟨sc0.start + SCHEDULE_STEP, 0⟩ }, store,
        (sc0.start + SCHEDULE_STEP, sc0.start + SCHEDULE_STEP + SCHEDULE_STEP)) ∧
    (st.use_schedule = true →
      update_schedule { st with sched := some ⟨sc0.start + SCHEDULE_STEP, 0⟩ } store t false =
        .ok ({ st with sched := some ⟨sc0.start + SCHEDULE_STEP, 1⟩ },
          commit_schedule ⟨sc0.start + SCHEDULE_STEP, 1⟩ store t)) := by
  have hadj : applyMaxAttempts cfg.max_attempts sc0 = ⟨sc0.start + SCHEDULE_STEP, 0⟩ := by
    simp [applyMaxAttempts, hma, hm0, hatt]
  constructor
  · rw [load_schedule_record cfg now st store t lines sc0 hstore hparse, hadj]
    rw [if_neg hfresh]
  · intro hu
    simp [update_schedule, hu]

/-- Witness for C10: a record five failures deep, two hours short of the
staleness horizon; the load returns the advanced interval with the store
untouched. -/
theorem abandonment_not_persisted_witness :
    load_schedule cfgEx nowEx stEx (storeWith [lineC10]) fsEx =
      .ok (⟨some ⟨1697414300, 0⟩, true⟩, storeWith [lineC10], (1697414300, 1697417900)) := by
  exact (abandonment_not_persisted cfgEx nowEx stEx (storeWith [lineC10]) fsEx
    [lineC10] ⟨1697410700, 5⟩ 2 rfl rfl rfl (by decide) (by decide) (by decide)).1

/-- C6 (amended): with a truthy finite `max_attempts` threshold, a loaded
record with `failure_count ≥ max_attempts` is advanced by exactly one step
with `failure_count` reset to 0; the following interval is returned only
when the advanced start is not stale — otherwise the staleness policy then
discards the advanced record and re-initializes fresh.  With no threshold
configured (Python `None`, or `0` which is equally falsy) the abandonment
never occurs: a non-stale record is returned unchanged. -/
theorem max_attempts_abandonment (cfg : Config) (now : Int) (st : ArchState) (store : Store)
    (t : Target) (lines : Lines) (sc0 : Sched)
    (hstore : store (get_schedule_file t) = some lines)
    (hparse : parse_schedule lines = .record sc0) :
    (∀ m, cfg.max_attempts = some m → m ≠ 0 → m ≤ sc0.attempts →
      ¬(now - (sc0.start + SCHEDULE_STEP) > cfg.max_age) →
      load_schedule cfg now st store t =
        .ok ({ st with sched := some ⟨sc0.start + SCHEDULE_STEP, 0⟩ }, store,
          (sc0.start + SCHEDULE_STEP, sc0.start + SCHEDULE_STEP + SCHEDULE_STEP))) ∧
    (∀ m, cfg.max_attempts = some m → m ≠ 0 → m ≤ sc0.attempts →
      now - (sc0.start + SCHEDULE_STEP) > cfg.max_age →
      load_schedule cfg now st store t = .ok (init_schedule cfg now st store t)) ∧
    (cfg.max_attempts = none ∨ cfg.max_attempts = some 0 →
      ¬(now - sc0.start > cfg.max_age) →
      load_schedule cfg now st store t =
        .ok ({ st with sched := some sc0 }, store, (sc0.start, sc0.start + SCHEDULE_STEP))) := by
  refine ⟨?_, ?_, ?_⟩
  · intro m hma hm0 hatt hns
    have hadj : applyMaxAttempts cfg.max_attempts sc0 = ⟨sc0.start + SCHEDULE_STEP, 0⟩ := by
      simp [applyMaxAttempts, hma, hm0, hatt]
    rw [load_schedule_record cfg now st store t lines sc0 hstore hparse, hadj, if_neg hns]
  · intro m hma hm0 hatt hstale
    have hadj : applyMaxAttempts cfg.max_attempts sc0 = ⟨sc0.start + SCHEDULE_STEP, 0⟩ := by
      simp [applyMaxAttempts, hma, hm0, hatt]
    rw [load_schedule_record cfg now st store t lines sc0 hstore hparse, hadj, if_pos hstale]
  · intro hma hns
    have hadj : applyMaxAttempts cfg.max_attempts sc0 = sc0 := by
      rcases hma with hma | hma <;> simp [applyMaxAttempts, hma]
    rw [load_schedule_record cfg now st store t lines sc0 hstore hparse, hadj, if_neg hns]

/-- Witness for C6 (amended): a record at the threshold whose advanced start
is within the staleness horizon yields the following interval; and with a
configured threshold of `0` (falsy like `None`) a record five failures deep
is returned unchanged — no abandonment. -/
theorem max_attempts_abandonment_witness :
    load_schedule cfgEx nowEx stEx (storeWith [lineC5]) fsEx =
      .ok (⟨some ⟨1697414300, 0⟩, true⟩, storeWith [lineC5], (1697414300, 1697417900)) ∧
    load_schedule cfgZero nowEx stEx (storeWith [lineC6z]) fsEx =
      .ok (⟨some ⟨1699995600, 5⟩, true⟩, storeWith [lineC6z], (1699995600, 1699999200)) := by
  refine ⟨?_, ?_⟩
  · exact (max_attempts_abandonment cfgEx nowEx stEx (storeWith [lineC5]) fsEx
      [lineC5] ⟨1697410700, 2⟩ rfl rfl).1 2 rfl (by decide) (by decide) (by decide)
  · exact (max_attempts_abandonment cfgZero nowEx stEx (storeWith [lineC6z]) fsEx
      [lineC6z] ⟨1699995600, 5⟩ rfl rfl).2.2 (Or.inr rfl) (by decide)

/-- Counterexample to C6 as stated: the record `1697000000 2` has
`failure_count = max_attempts = 2`, yet `load_schedule` does not return the
following interval `(1697003600, 1697007200)` — the advanced start is still
stale, so the record is re-initialized fresh and committed instead. -/
theorem abandonment_stale_reinit :
    parse_schedule [lineC6] = .record ⟨1697000000, 2⟩ ∧
    cfgEx.max_attempts = some 2 ∧
    load_schedule cfgEx nowEx stEx (storeWith [lineC6]) fsEx =
      .ok (⟨some ⟨1697410800, 0⟩, true⟩,
        commit_schedule ⟨1697410800, 0⟩ (storeWith [lineC6]) fsEx, (1697410800, 1697414400)) ∧
    ((1697410800 : Int), (1697414400 : Int)) ≠ ((1697003600 : Int), (1697007200 : Int)) := by
  exact ⟨rfl, rfl, rfl, by decide⟩

/-- C5 (amended): a loaded record whose start — after the max-attempts
adjustment, which runs first — is strictly older than `now - max_age` is
discarded: the record is re-initialized with failure count 0 and start
`fresh_start now max_age` (hour-floored `now - max_age`, advanced in hour
steps until within `max_age` of `now`), and committed immediately. -/
theorem stale_record_reinitialized (cfg : Config) (now : Int) (st : ArchState) (store : Store)
    (t : Target) (lines : Lines) (sc0 : Sched)
    (hstore : store (get_schedule_file t) = some lines)
    (hparse : parse_schedule lines = .record sc0)
    (hstale : now - (applyMaxAttempts cfg.max_attempts sc0).start > cfg.max_age) :
    load_schedule cfg now st store t = .ok (init_schedule cfg now st store t) ∧
    (init_schedule cfg now st store t).1.sched = some ⟨fresh_start now cfg.max_age, 0⟩ ∧
    (init_schedule cfg now st store t).2.1 (get_schedule_file t) =
      some (schedLines ⟨fresh_start now cfg.max_age, 0⟩) ∧
    hourFloor (now - cfg.max_age) ≤ fresh_start now cfg.max_age ∧
    now - fresh_start now cfg.max_age ≤ cfg.max_age := by
  refine ⟨?_, rfl, init_schedule_store cfg now st store t, ?_, fresh_start_not_stale now _⟩
  · rw [load_schedule_record cfg now st store t lines sc0 hstore hparse, if_pos hstale]
  · exact advanceFreshGo_ge now cfg.max_age _ _

/-- Witness for C5 (amended): a stale record (30 days plus ~35 days old) is
replaced by the committed fresh record at the hour floor of
`nowEx - max_age`. -/
theorem stale_record_reinitialized_witness :
    load_schedule cfgEx nowEx stEx (storeWith [lineC5w]) fsEx =
      .ok (init_schedule cfgEx nowEx stEx (storeWith [lineC5w]) fsEx) ∧
    (init_schedule cfgEx nowEx stEx (storeWith [lineC5w]) fsEx).1.sched =
      some ⟨1697410800, 0⟩ := by
  have h := stale_record_reinitialized cfgEx nowEx stEx (storeWith [lineC5w]) fsEx
    [lineC5w] ⟨1697000000, 0⟩ rfl rfl (by decide)
  exact ⟨h.1, h.2.1⟩

/-- Counterexample to C5 as stated: the record `1697410700 2` has a start
strictly older than `nowEx - max_age`, yet `load_schedule` neither discards
it nor commits a fresh record: the max-attempts branch advances it into the
allowed window first, so the store is returned unchanged and the start is not
the fresh hour-floored value. -/
theorem stale_raw_record_not_reinitialized :
    parse_schedule [lineC5] = .record ⟨1697410700, 2⟩ ∧
    nowEx - 1697410700 > cfgEx.max_age ∧
    load_schedule cfgEx nowEx stEx (storeWith [lineC5]) fsEx =
      .ok (⟨some ⟨1697414300, 0⟩, true⟩, storeWith [lineC5], (1697414300, 1697417900)) ∧
    (storeWith [lineC5]) (get_schedule_file fsEx) = some [lineC5] ∧
    (1697414300 : Int) ≠ fresh_start nowEx cfgEx.max_age := by
  exact ⟨rfl, by decide, rfl, rfl, by decide⟩


/-- C7: a resolved interval with start or end later than `now` makes the run
a deferring no-op (a normal return, not an error): the archiver is not
invoked, no lock is taken, and `commit_outcome` is not applied — state and
store are exactly those of interval resolution, in both schedule-driven and
explicit-interval runs. -/
theorem future_interval_deferred (cfg : Config) (now : Int) (st0 : ArchState) (store0 : Store)
    (t : Target) :
    (∀ s e st2 store2, st0.use_schedule = true → cfg.fsname_to_hdf5 t ≠ none →
      load_schedule cfg now st0 store0 t = .ok (st2, store2, (s, e)) →
      s > now ∨ e > now →
      ∀ oh method oe, archive cfg now st0 store0 none none oh method oe t =
        ⟨.ok .deferred, st2, store2, false, false⟩) ∧
    (∀ s e, cfg.fsname_to_hdf5 t ≠ none → s > now ∨ e > now →
      ∀ oh method oe, archive cfg now st0 store0 (some s) (some e) oh method oe t =
        ⟨.ok .deferred, { st0 with use_schedule := false }, store0, false, false⟩) := by
  constructor
  · intro s e st2 store2 hu hcfg hload hfut oh method oe
    have hres : resolve_interval cfg now st0 store0 none none t = .ok (st2, store2, (s, e)) := by
      simp [resolve_interval, hu, hload]
    cases hc : cfg.fsname_to_hdf5 t with
    | none => exact absurd hc hcfg
    | some out => simp [archive, hc, hres, hfut]
  · intro s e hcfg hfut oh method oe
    have hres : resolve_interval cfg now { st0 with use_schedule := false } store0
        (some s) (some e) t = .ok ({ st0 with use_schedule := false }, store0, (s, e)) := by
      simp [resolve_interval]
    cases hc : cfg.fsname_to_hdf5 t with
    | none => exact absurd hc hcfg
    | some out => simp [archive, hc, hres, hfut]

/-- Witness for C7: a schedule record one hundred days in the future defers;
nothing is invoked and the loaded state/store are returned as is. -/
theorem future_interval_deferred_witness :
    archive cfgEx nowEx stEx (storeWith [lineFut]) none none false (some .returns) true fsEx =
      ⟨.ok .deferred, ⟨some ⟨1800000000, 0⟩, true⟩, storeWith [lineFut], false, false⟩ := by
  exact (future_interval_deferred cfgEx nowEx stEx (storeWith [lineFut]) fsEx).1
    1800000000 1800003600 ⟨some ⟨1800000000, 0⟩, true⟩ (storeWith [lineFut])
    rfl (by simp [cfgEx, fsEx]) rfl (by decide) false (some .returns) true

/-- C1 (amended): in a schedule-driven run whose lock is already held by
another process, the run aborts with the distinct already-running condition
and the archiver is never invoked, but the schedule record is not left
unchanged: the blind exception handler in `archive` records the conflict as
a failure, committing the record with `failure_count` incremented (start
unchanged) before the exception propagates. -/
theorem lock_conflict_commits_failure (cfg : Config) (now : Int) (st0 : ArchState)
    (store0 : Store) (t : Target) (st2 : ArchState) (store2 : Store) (s e : Int) (sc : Sched)
    (hu : st0.use_schedule = true)
    (hcfg : cfg.fsname_to_hdf5 t ≠ none)
    (hload : load_schedule cfg now st0 store0 t = .ok (st2, store2, (s, e)))
    (hsched : st2.sched = some sc)
    (hu2 : st2.use_schedule = true)
    (hpast : ¬(s > now ∨ e > now)) :
    ∀ method oe, archive cfg now st0 store0 none none true method oe t =
      ⟨.error .alreadyRunning, { st2 with sched := some ⟨sc.start, sc.attempts + 1⟩ },
        commit_schedule ⟨sc.start, sc.attempts + 1⟩ store2 t, false, false⟩ := by
  intro method oe
  obtain ⟨ls, hls⟩ := load_ok_file_exists cfg now st0 store0 t _ hload
  have hls2 : store2 (get_schedule_file t) = some ls := hls
  have hres : resolve_interval cfg now st0 store0 none none t = .ok (st2, store2, (s, e)) := by
    simp [resolve_interval, hu, hload]
  have hra : run_archiver store2 true method t = ⟨.error .alreadyRunning, false, false⟩ := by
    unfold run_archiver
    rw [hls2]
    simp
  have hupd : update_schedule st2 store2 t false =
      .ok ({ st2 with sched := some ⟨sc.start, sc.attempts + 1⟩ },
        commit_schedule ⟨sc.start, sc.attempts + 1⟩ store2 t) := by
    simp [update_schedule, hu2, hsched]
  have hrac : run_and_commit st2 store2 true method oe t =
      ⟨.error .alreadyRunning, { st2 with sched := some ⟨sc.start, sc.attempts + 1⟩ },
        commit_schedule ⟨sc.start, sc.attempts + 1⟩ store2 t, false, false⟩ := by
    simp [run_and_commit, hra, hupd]
  cases hc : cfg.fsname_to_hdf5 t with
  | none => exact absurd hc hcfg
  | some out => simp [archive, hc, hres, hpast, hrac]

/-- Witness for C1 (amended) on a fresh two-hour-old record with the lock
held elsewhere: the failure is committed and the error propagates. -/
theorem lock_conflict_commits_failure_witness :
    archive cfgEx nowEx stEx (storeWith [lineC1]) none none true (some .returns) true fsEx =
      ⟨.error .alreadyRunning, ⟨some ⟨1699995600, 1⟩, true⟩,
        commit_schedule ⟨1699995600, 1⟩ (storeWith [lineC1]) fsEx, false, false⟩ := by
  exact lock_conflict_commits_failure cfgEx nowEx stEx (storeWith [lineC1]) fsEx
    ⟨some ⟨1699995600, 0⟩, true⟩ (storeWith [lineC1]) 1699995600 1699999200 ⟨1699995600, 0⟩
    rfl (by simp [cfgEx, fsEx]) rfl rfl rfl (by decide) (some .returns) true

/-- Counterexample to C1 as stated: with the lock already held, the run does
abort with the distinct already-running condition without invoking the
archiver, but the persisted record is not left unchanged — the failure count
is incremented from `1699995600 0` to a committed `1699995600 1`. -/
theorem lock_conflict_mutates_schedule :
    (archive cfgEx nowEx stEx (storeWith [lineC1]) none none true (some .returns) true
      fsEx).result = .error .alreadyRunning ∧
    (archive cfgEx nowEx stEx (storeWith [lineC1]) none none true (some .returns) true
      fsEx).invoked = false ∧
    (archive cfgEx nowEx stEx (storeWith [lineC1]) none none true (some .returns) true
      fsEx).store (get_schedule_file fsEx) = some [commentLine, lineC1after] ∧
    storeWith [lineC1] (get_schedule_file fsEx) = some [lineC1] ∧
    some [commentLine, lineC1after] ≠ some [lineC1] := by
  exact ⟨rfl, rfl, rfl, rfl, by decide⟩

/-- C2 (amended): in a run that reaches the archiver invocation, the lock is
released before returning when the archiver call returns normally — both on
the success path and on the missing-output failure path — but when the
archiver call raises, `run_archiver` has no `finally`: the lock is still held
as the exception propagates out of the run. -/
theorem lock_release_paths (cfg : Config) (now : Int) (st0 : ArchState) (store0 : Store)
    (t : Target) (st2 : ArchState) (store2 : Store) (s e : Int) (sc : Sched)
    (hu : st0.use_schedule = true)
    (hcfg : cfg.fsname_to_hdf5 t ≠ none)
    (hload : load_schedule cfg now st0 store0 t = .ok (st2, store2, (s, e)))
    (hsched : st2.sched = some sc)
    (hu2 : st2.use_schedule = true)
    (hpast : ¬(s > now ∨ e > now)) :
    (∀ store' : Store, (run_archiver store' false (some .returns) t).lockHeld = false) ∧
    (∀ (store' : Store) ls, store' (get_schedule_file t) = some ls →
      run_archiver store' false (some .raises) t = ⟨.error .archiverError, true, true⟩) ∧
    (∀ oe, (archive cfg now st0 store0 none none false (some .returns) oe t).lockHeld = false) ∧
    (∀ oe, (archive cfg now st0 store0 none none false (some .raises) oe t).lockHeld = true ∧
      (archive cfg now st0 store0 none none false (some .raises) oe t).result =
        .error .archiverError) := by
  obtain ⟨ls2, hls⟩ := load_ok_file_exists cfg now st0 store0 t _ hload
  have hls2 : store2 (get_schedule_file t) = some ls2 := hls
  have hres : resolve_interval cfg now st0 store0 none none t = .ok (st2, store2, (s, e)) := by
    simp [resolve_interval, hu, hload]
  have hret : run_archiver store2 false (some .returns) t = ⟨.ok (), false, true⟩ := by
    unfold run_archiver
    rw [hls2]
    simp
  have hraise : run_archiver store2 false (some .raises) t =
      ⟨.error .archiverError, true, true⟩ := by
    unfold run_archiver
    rw [hls2]
    simp
  have hupdT : update_schedule st2 store2 t true =
      .ok ({ st2 with sched := some ⟨sc.start + SCHEDULE_STEP, 0⟩ },
        commit_schedule ⟨sc.start + SCHEDULE_STEP, 0⟩ store2 t) := by
    simp [update_schedule, hu2, hsched]
  have hupdF : update_schedule st2 store2 t false =
      .ok ({ st2 with sched := some ⟨sc.start, sc.attempts + 1⟩ },
        commit_schedule ⟨sc.start, sc.attempts + 1⟩ store2 t) := by
    simp [update_schedule, hu2, hsched]
  refine ⟨?_, ?_, ?_, ?_⟩
  · intro store'
    cases hk : store' (get_schedule_file t) with
    | none => simp [run_archiver, hk]
    | some ls => simp [run_archiver, hk]
  · intro store' ls hlsx
    unfold run_archiver
    rw [hlsx]
    simp
  · intro oe
    cases hc : cfg.fsname_to_hdf5 t with
    | none => exact absurd hc hcfg
    | some out =>
      cases oe <;> simp [archive, hc, hres, hpast, run_and_commit, hret, hupdT, hupdF]
  · intro oe
    cases hc : cfg.fsname_to_hdf5 t with
    | none => exact absurd hc hcfg
    | some out =>
      cases oe <;>
        simp [archive, hc, hres, hpast, run_and_commit, hraise, hupdF]

/-- Witness for C2 (amended): on the same concrete run, the normal-return
archiver leaves the lock released and the raising archiver leaves it held. -/
theorem lock_release_paths_witness :
    (archive cfgEx nowEx stEx (storeWith [lineC1]) none none false (some .returns) true
      fsEx).lockHeld = false ∧
    (archive cfgEx nowEx stEx (storeWith [lineC1]) none none false (some .raises) true
      fsEx).lockHeld = true := by
  have h := lock_release_paths cfgEx nowEx stEx (storeWith [lineC1]) fsEx
    ⟨some ⟨1699995600, 0⟩, true⟩ (storeWith [lineC1]) 1699995600 1699999200 ⟨1699995600, 0⟩
    rfl (by simp [cfgEx, fsEx]) rfl rfl rfl (by decide)
  exact ⟨h.2.2.1 true, (h.2.2.2 true).1⟩

/-- Counterexample to C2 as stated: when the archiver call raises, the lock
is not released before the run propagates the exception. -/
theorem archiver_exception_keeps_lock :
    (archive cfgEx nowEx stEx (storeWith [lineC1]) none none false (some .raises) true
      fsEx).lockHeld = true ∧
    (archive cfgEx nowEx stEx (storeWith [lineC1]) none none false (some .raises) true
      fsEx).result = .error .archiverError := by
  exact ⟨rfl, rfl⟩


theorem applyMaxAttempts_start (ma : Option Int) (sc : Sched) :
    (applyMaxAttempts ma sc = sc ∨ applyMaxAttempts ma sc = ⟨sc.start + SCHEDULE_STEP, 0⟩) ∧
    sc.start ≤ (applyMaxAttempts ma sc).start := by
  have hstep : SCHEDULE_STEP = 3600 := rfl
  cases ma with
  | none => simp [applyMaxAttempts]
  | some m =>
    by_cases h : m ≠ 0 ∧ m ≤ sc.attempts
    · refine ⟨Or.inr ?_, ?_⟩ <;> simp [applyMaxAttempts, h] <;> omega
    · simp [applyMaxAttempts, h]

theorem runOp_step (cfg : Config) (now : Int) (t : Target) (op : SchedOp)
    (p : ArchState × Store) (h : SchedInv cfg now t p) :
    SchedInv cfg now t (runOp cfg now t op p) ∧
    startVal p ≤ startVal (runOp cfg now t op p) ∧
    (startVal (runOp cfg now t op p) = startVal p ∨
     startVal (runOp cfg now t op p) = startVal p + SCHEDULE_STEP ∨
     startVal (runOp cfg now t op p) = fresh_start now cfg.max_age) := by
  have hstep : SCHEDULE_STEP = 3600 := rfl
  obtain ⟨hu, sc, hsched, hstore⟩ := h
  have hsv : startVal p = sc.start := by simp [startVal, hsched]
  cases op with
  | commit b =>
    cases b with
    | true =>
      have hrun : runOp cfg now t (.commit true) p =
          ({ p.1 with sched := some ⟨sc.start + SCHEDULE_STEP, 0⟩ },
            commit_schedule ⟨sc.start + SCHEDULE_STEP, 0⟩ p.2 t) := by
        simp [runOp, update_schedule, hu, hsched]
      rw [hrun]
      refine ⟨⟨hu, ⟨sc.start + SCHEDULE_STEP, 0⟩, rfl, Or.inl (commit_schedule_get _ _ _)⟩,
        ?_, ?_⟩
      · simp [startVal, hsched, hstep]
      · right; left
        simp [startVal, hsched]
    | false =>
      have hrun : runOp cfg now t (.commit false) p =
          ({ p.1 with sched := some ⟨sc.start, sc.attempts + 1⟩ },
            commit_schedule ⟨sc.start, sc.attempts + 1⟩ p.2 t) := by
        simp [runOp, update_schedule, hu, hsched]
      rw [hrun]
      refine ⟨⟨hu, ⟨sc.start, sc.attempts + 1⟩, rfl, Or.inl (commit_schedule_get _ _ _)⟩,
        ?_, ?_⟩
      · simp [startVal, hsched]
      · left
        simp [startVal, hsched]
  | next =>
    rcases hstore with hA | ⟨sc0, hkey, hadj, hle0, hns⟩
    · have hload := load_schedule_record cfg now p.1 p.2 t (schedLines sc) sc hA
        (parse_schedule_schedLines sc)
      obtain ⟨hcases, hstartle⟩ := applyMaxAttempts_start cfg.max_attempts sc
      by_cases hstale : now - (applyMaxAttempts cfg.max_attempts sc).start > cfg.max_age
      · rw [if_pos hstale] at hload
        have hrun : runOp cfg now t .next p =
            ({ p.1 with sched := some ⟨fresh_start now cfg.max_age, 0⟩ },
              commit_schedule ⟨fresh_start now cfg.max_age, 0⟩ p.2 t) := by
          simp [runOp, hload, init_schedule]
        rw [hrun]
        have hge : now - cfg.max_age ≤ fresh_start now cfg.max_age := fresh_start_ge _ _
        refine ⟨⟨hu, ⟨fresh_start now cfg.max_age, 0⟩, rfl,
          Or.inl (commit_schedule_get _ _ _)⟩, ?_, ?_⟩
        · simp [startVal, hsched]
          omega
        · right; right
          simp [startVal]
      · rw [if_neg hstale] at hload
        have hrun : runOp cfg now t .next p =
            ({ p.1 with sched := some (applyMaxAttempts cfg.max_attempts sc) }, p.2) := by
          simp [runOp, hload]
        rw [hrun]
        refine ⟨⟨hu, applyMaxAttempts cfg.max_attempts sc, rfl, ?_⟩, ?_, ?_⟩
        · rcases hcases with hch | hch
          · rw [hch]
            exact Or.inl hA
          · exact Or.inr ⟨sc, hA, rfl, hstartle, by omega⟩
        · simp [startVal, hsched, hstartle]
        · rcases hcases with hch | hch <;> rw [hch]
          · left
            simp [startVal, hsched]
          · right; left
            simp [startVal, hsched]
    · have hload := load_schedule_record cfg now p.1 p.2 t (schedLines sc0) sc0 hkey
        (parse_schedule_schedLines sc0)
      rw [← hadj] at hload
      have hstale : ¬(now - sc.start > cfg.max_age) := by omega
      rw [if_neg hstale] at hload
      have hrun : runOp cfg now t .next p = ({ p.1 with sched := some sc }, p.2) := by
        simp [runOp, hload]
      rw [hrun]
      refine ⟨⟨hu, sc, rfl, Or.inr ⟨sc0, hkey, hadj, hle0, hns⟩⟩, ?_, ?_⟩
      · simp [startVal, hsched]
      · left
        simp [startVal, hsched]

/-- C8: along any sequence of schedule-driven operations on a target
(`next_interval` = `runOp .next`, `commit_outcome` = `runOp (.commit b)`),
the tracked `next_start` never moves backward: every single operation leaves
it unchanged, advances it by exactly one step, or resets it to the fresh
`now - max_age` hour-floored value, and over any operation list the value is
monotone non-decreasing. -/
theorem next_start_monotone (cfg : Config) (now : Int) (t : Target) :
    (∀ op p, SchedInv cfg now t p →
      startVal p ≤ startVal (runOp cfg now t op p) ∧
      (startVal (runOp cfg now t op p) = startVal p ∨
       startVal (runOp cfg now t op p) = startVal p + SCHEDULE_STEP ∨
       startVal (runOp cfg now t op p) = fresh_start now cfg.max_age)) ∧
    (∀ ops p, SchedInv cfg now t p →
      SchedInv cfg now t (execOps cfg now t ops p) ∧
      startVal p ≤ startVal (execOps cfg now t ops p)) := by
  constructor
  · intro op p hp
    exact ⟨(runOp_step cfg now t op p hp).2.1, (runOp_step cfg now t op p hp).2.2⟩
  · intro ops
    induction ops with
    | nil => intro p hp; exact ⟨hp, le_refl _⟩
    | cons op ops ih =>
      intro p hp
      have h1 := runOp_step cfg now t op p hp
      have h2 := ih (runOp cfg now t op p) h1.1
      exact ⟨h2.1, le_trans h1.2.1 h2.2⟩

/-- Witness for C8: a load, a success commit and a failure commit starting
from a committed two-hour-old record never decrease `next_start`. -/
theorem next_start_monotone_witness :
    startVal (⟨some ⟨1699995600, 0⟩, true⟩, commit_schedule ⟨1699995600, 0⟩ emptyStore fsEx) ≤
      startVal (execOps cfgEx nowEx fsEx [SchedOp.next, SchedOp.commit true, SchedOp.commit false]
        (⟨some ⟨1699995600, 0⟩, true⟩, commit_schedule ⟨1699995600, 0⟩ emptyStore fsEx)) := by
  exact ((next_start_monotone cfgEx nowEx fsEx).2
    [SchedOp.next, SchedOp.commit true, SchedOp.commit false]
    (⟨some ⟨1699995600, 0⟩, true⟩, commit_schedule ⟨1699995600, 0⟩ emptyStore fsEx)
    ⟨rfl, ⟨1699995600, 0⟩, rfl,
      Or.inl (by exact commit_schedule_get ⟨1699995600, 0⟩ emptyStore fsEx)⟩).2
